import Mathlib

/-!
Verification of the Sentence-to-Event Extraction Engine
(`src/controllers/nlpController.ts`, current variant).

The engine's pure algorithmic core is embedded shallowly: external
collaborators (tokenizer/tagger, date parser, event identity bookkeeping)
are fields of an `Env` record of oracle functions, exactly as the spec
declares them to be out-of-scope black boxes.  Host-language strings are
`String`, first-occurrence substring search models `String.prototype.indexOf`,
and the host TypeError raised inside `findProperName` is modelled by
`Except.error ()`.
-/

set_option maxHeartbeats 1000000

namespace ICalNlp

/-- A tagged span as produced by the tagger detail output: substring value and
grammar category (`date`, `eventNoun`, `properName`, ...). -/
structure Detail where
  value : String
  type : String
deriving DecidableEq, Repr

/-- A selection span: `{value, index, type}` with a character offset. -/
structure Span where
  value : String
  index : Int
  type : String
deriving DecidableEq, Repr

/-- The resolved proper-name object of `findProperName`, which additionally
carries the rendered `parsedValue`. -/
structure ProperName where
  value : String
  index : Int
  type : String
  parsedValue : String
deriving DecidableEq, Repr

/-- The result object of `findIntentionalVerb`. -/
structure IntentionalVerb where
  value : String
  index : Int
  type : String
  noun : String
deriving DecidableEq, Repr

/-- An external persisted Event; the engine only reads its `processed` flag. -/
structure Event where
  processed : Bool
  eid : Nat
deriving DecidableEq, Repr

/-- The input sentence with its lazily injected semantic fields. -/
structure Sentence where
  value : String
  startDate : Option Int
  endDate : Option Int
  eventNoun : Option String
deriving DecidableEq, Repr

/-- A parsed date range (the external parser's `DateRange`). -/
structure DateRange where
  start : Int
  stop : Int
deriving DecidableEq, Repr

/-- The `{selection, event}` record a successful `process` call returns. -/
structure ProcessResult where
  selection : List Span
  event : Event
deriving DecidableEq, Repr

/-- Possible outcomes of one `process` call.  `nullR` is the host `null`,
`undef` is the host `undefined` (the bare `return` on parser failure),
`crash` is an uncaught host exception, and `success r created` carries the
returned record together with whether `createNewEvent` was invoked to
produce it. -/
inductive ProcessOut where
  | crash : ProcessOut
  | nullR : ProcessOut
  | undef : ProcessOut
  | success : ProcessResult → Bool → ProcessOut
deriving DecidableEq, Repr

/-! ### Host string and array primitives -/

/-- `text.toLowerCase()`. -/
def toLowerStr (s : String) : String := String.mk (s.toList.map Char.toLower)

/-- First index at which `needle` occurs in `hay`, if any. -/
def indexOfAux (needle : List Char) : List Char → Option Nat
  | [] => if needle = [] then some 0 else none
  | c :: rest =>
    if needle.isPrefixOf (c :: rest) then some 0
    else (indexOfAux needle rest).map (· + 1)

/-- `hay.indexOf(needle)`: first-occurrence character offset, `-1` if absent. -/
def strIndexOf (hay needle : String) : Int :=
  match indexOfAux needle.toList hay.toList with
  | some n => (n : Int)
  | none => -1

/-- `array.indexOf(x)` for host arrays: first position, `-1` if absent. -/
def arrIndexOf [DecidableEq α] : List α → α → Int
  | [], _ => -1
  | a :: rest, x =>
    if a = x then 0
    else
      let r := arrIndexOf rest x
      if r = -1 then -1 else r + 1

/-- Host array indexing `l[i]`: `undefined` (here `none`) when out of range,
including negative indices. -/
def listGetI (l : List α) (i : Int) : Option α :=
  if 0 ≤ i then l.get? i.toNat else none

/-- Host string character access `s[i]`. -/
def charAt (s : String) (i : Int) : Option Char := listGetI s.toList i

/-- `s.split(" ")` on character lists: split at every single space, without
collapsing; never returns an empty list. -/
def splitSpaceL : List Char → List (List Char)
  | [] => [[]]
  | c :: rest =>
    let r := splitSpaceL rest
    if c = ' ' then [] :: r
    else
      match r with
      | [] => [[c]]
      | h :: t => (c :: h) :: t

/-- `s.split(" ")`. -/
def splitSpace (s : String) : List String := (splitSpaceL s.toList).map String.mk

/-- `value.charAt(0).toUpperCase() + value.slice(1)`. -/
def capitalize (s : String) : String :=
  match s.toList with
  | [] => s
  | c :: rest => String.mk (c.toUpper :: rest)

/-- Modelled from the spec: `Misc.isLowerCase` (src/misc/misc.ts is not among
the provided sources).  The spec says lower-case first letters are rejected to
avoid matching common-noun homographs of names, so the check holds exactly for
lower-case letters; an absent character (out-of-bounds host access yields
`undefined`) is not treated as lower-case. -/
def isLowerCase (c : Option Char) : Bool :=
  match c with
  | some ch => ch.isLower
  | none => false

/-- Modelled from the spec: `Sentence.injectSemanticFields`
(src/model/sentence.ts is not among the provided sources).  The spec says the
computed date range and event-noun text are injected into the sentence's
semantic fields. -/
def injectSemanticFields (s : Sentence) (startDate endDate : Int) (eventNoun : String) : Sentence :=
  { s with startDate := some startDate, endDate := some endDate, eventNoun := some eventNoun }

/-! ### External collaborators

The spec (§6) treats the tokenizer/tagger, the date-range parser and the
event identity bookkeeping as black boxes; they are oracle functions here.
`tagMain`/`tagSecondary` are `doc.customEntities().out(its.detail)` of the
two trained wink instances, `tokensOf`/`posOf` are `tokens.out()` and
`tokens.out(its.pos)`, and `parseDates` is `smartDateParser.parse` composed
with `smartDateParser.getDates`. -/
structure Env where
  syntacticCheck : Sentence → Option Event
  semanticCheck : Sentence → Option Event
  createNewEvent : Sentence → Event
  tagMain : String → List Detail
  tagSecondary : String → List Detail
  tokensOf : String → List String
  posOf : String → List String
  parseDates : String → Option DateRange

/-! ### Candidate filters (`filterDates`, `filterProperNames`, ...) -/

/-- `filterDates`: keep the date-category custom entities. -/
def filterDates (customEntities : List Detail) : List Detail :=
  customEntities.filter (fun p =>
    decide (p.type = "date" ∨ p.type = "ordinalDate" ∨ p.type = "ordinalDateReverse" ∨
      p.type = "timeRange" ∨ p.type = "exactTime" ∨ p.type = "duration"))

/-- `filterProperNames`. -/
def filterProperNames (customEntities : List Detail) : List Detail :=
  customEntities.filter (fun p => decide (p.type = "properName"))

/-- `filterEventNoun`. -/
def filterEventNoun (customEntities : List Detail) : List Detail :=
  customEntities.filter (fun p => decide (p.type = "eventNoun"))

/-- `filterPurposes` (computed by `process` but never consumed). -/
def filterPurposes (customEntities : List Detail) : List Detail :=
  customEntities.filter (fun p => decide (p.type = "purpose"))

/-! ### Anchor & linking heuristics -/

/-- `findEventNoun(text, eventNouns, selectedVerbIndex)`: scan the candidates,
keeping the one at the strictly smallest `|indexOf(value) - anchor|`, starting
from the sentinel selection `{value: "", index: -1, type: ""}` and sentinel
distance `1000`. -/
def findEventNoun (text : String) (eventNouns : List Detail) (selectedVerbIndex : Int) : Span :=
  (eventNouns.foldl
    (fun acc n =>
      let nIndex := strIndexOf text n.value
      let distanceFromVerb := (nIndex - selectedVerbIndex).natAbs
      if distanceFromVerb < acc.2 then (⟨n.value, nIndex, n.type⟩, distanceFromVerb) else acc)
    (⟨"", -1, ""⟩, 1000)).1

/-- `findIntentionalVerb(customEntities, tokens, text, selectedDateIndex)`:
nearest `intentionalVerb` match to the date anchor (same sentinel scheme),
then a derived noun phrase `` `${verb} ${value.split(" ").last()}` `` where
`verb = tokenValue[pos.indexOf("VERB")]` — the token at the first
VERB-tagged position of the whole sentence (host `tokenValue[-1]` is
`undefined`, which the template string renders as the text
`undefined`). -/
def findIntentionalVerb (customEntities : List Detail) (tokens pos : List String)
    (text : String) (selectedDateIndex : Int) : IntentionalVerb :=
  let intentionalVerbs := customEntities.filter (fun d => decide (d.type = "intentionalVerb"))
  if intentionalVerbs.length = 0 then ⟨"", -1, "", ""⟩
  else
    let sel := (intentionalVerbs.foldl
      (fun acc n =>
        let nIndex := strIndexOf text n.value
        let distanceFromVerb := (nIndex - selectedDateIndex).natAbs
        if distanceFromVerb < acc.2 then (⟨n.value, nIndex, n.type⟩, distanceFromVerb) else acc)
      ((⟨"", -1, ""⟩ : Span), (1000 : Nat))).1
    let verbIndex := arrIndexOf pos ("VERB")
    let verb := (listGetI tokens verbIndex).getD ("undefined")
    ⟨sel.value, sel.index, sel.type, verb ++ " " ++ (splitSpace sel.value).getLastD ("")⟩

/-! ### Proper-name resolution

`findProperName` iterates over the candidates with the loop-carried state
below.  `hasAdp` and `adp` are declared *outside* the host `forEach`, so
`hasAdp` is sticky across iterations while `adp` is re-assigned on every
iteration; when `hasAdp` is already true and the current candidate is a
single word (`adp === undefined`), the host expression `adp.length` throws a
TypeError, modelled as `Except.error ()`. -/
structure FPNState where
  value : String
  index : Int
  type : String
  distance : Nat
  hasAdp : Bool
  adp : Option String
deriving DecidableEq, Repr

/-- The tail of one `forEach` iteration of `findProperName`: the case filter
and the nearest-candidate update. -/
def fpnConsider (st : FPNState) (properName : Detail) (pIndex : Int)
    (c : Option Char) (hasAdp : Bool) (splitValue : List String)
    (selectedEventNoun : Span) : FPNState :=
  if isLowerCase c then st
  else
    let distanceFromEventNoun := (pIndex - selectedEventNoun.index).natAbs
    if distanceFromEventNoun < st.distance then
      { st with
        distance := distanceFromEventNoun,
        value := if hasAdp then splitValue.getD 1 ("") else splitValue.headD (""),
        index := pIndex,
        type := properName.type }
    else st

/-- One `forEach` iteration of `findProperName`. -/
def findProperNameStep (text : String) (selectedEventNoun : Span)
    (st : FPNState) (properName : Detail) : Except Unit FPNState :=
  let pIndex := strIndexOf (toLowerStr text) properName.value
  let caseSensitiveFirstChar := charAt text pIndex
  let splitValue := splitSpace properName.value
  let adp : Option String := if splitValue.length = 1 then none else some (splitValue.headD (""))
  let hasAdp := st.hasAdp || adp.isSome
  let st1 : FPNState := { st with hasAdp := hasAdp, adp := adp }
  if hasAdp then
    match adp with
    | none => Except.error ()
    | some a =>
      Except.ok (fpnConsider st1 properName pIndex
        (charAt text (pIndex + (a.length : Int) + 1)) hasAdp splitValue selectedEventNoun)
  else
    Except.ok (fpnConsider st1 properName pIndex caseSensitiveFirstChar hasAdp splitValue
      selectedEventNoun)

/-- The `forEach` loop of `findProperName`. -/
def findProperNameLoop (text : String) (selectedEventNoun : Span) :
    FPNState → List Detail → Except Unit FPNState
  | st, [] => Except.ok st
  | st, p :: rest =>
    match findProperNameStep text selectedEventNoun st p with
    | Except.error e => Except.error e
    | Except.ok stNext => findProperNameLoop text selectedEventNoun stNext rest

/-- `findProperName(text, properNames, selectedEventNoun)`.  After the loop,
the rendered value is built from the *final* loop state's `hasAdp`/`adp`
(host `adp` being `undefined` at that point would render the text
`undefined`). -/
def findProperName (text : String) (properNames : List Detail)
    (selectedEventNoun : Span) : Except Unit (Option ProperName) :=
  match findProperNameLoop text selectedEventNoun ⟨"", -1, "", 1000, false, none⟩ properNames with
  | Except.error e => Except.error e
  | Except.ok st =>
    if st.index = -1 then Except.ok none
    else
      let parsedValue0 := capitalize st.value
      let parsedValue :=
        if !st.hasAdp then "with " ++ parsedValue0
        else (st.adp.getD ("undefined")) ++ " " ++ parsedValue0
      Except.ok (some ⟨st.value, st.index, st.type, parsedValue⟩)

/-! ### Title expansion (adjacency walk) -/

/-- The POS tags the walk may collect. -/
def adjTagOk (p : String) : Bool :=
  decide (p = "NOUN" ∨ p = "ADJ" ∨ p = "ADP" ∨ p = "PRON")

/-- `selectedProperName != null && adjWord == selectedProperName.value`. -/
def personMatches (sp : Option ProperName) (w : String) : Bool :=
  match sp with
  | some q => decide (w = q.value)
  | none => false

/-- The `while` loop of `findAdjAttributes`.  `none` is the in-loop
`return null` (abort of the whole direction); `some acc` is normal loop
exit.  The loop moves one token per step, so the provided fuel
(`tokens.length + pos.length + 2` at the call site) always exceeds the
number of host iterations. -/
def findAdjAux (tokens pos : List String) (selectedProperName : Option ProperName)
    (eventNounIndex selectedDateIndex : Int) (backward : Bool) (eventNounTokenIndex : Int) :
    Nat → Int → Int → List Span → Option (List Span)
  | 0, _, _, acc => some acc
  | Nat.succ fuel, adjOffset, cumulativeIndex, acc =>
    match listGetI pos (eventNounTokenIndex + adjOffset) with
    | none => some acc
    | some p =>
      if adjTagOk p then
        let adjWord := (listGetI tokens (eventNounTokenIndex + adjOffset)).getD ("")
        if personMatches selectedProperName adjWord then none
        else
          let selectedAdjAttributedIndex := cumulativeIndex +
            (if backward then eventNounIndex - ((adjWord.length : Int) + 1)
             else eventNounIndex + ((adjWord.length : Int) + 1))
          if selectedAdjAttributedIndex = selectedDateIndex then none
          else
            findAdjAux tokens pos selectedProperName eventNounIndex selectedDateIndex backward
              eventNounTokenIndex fuel
              (if backward then adjOffset - 1 else adjOffset + 1)
              selectedAdjAttributedIndex
              (acc ++ [⟨adjWord, selectedAdjAttributedIndex, p⟩])
      else some acc

/-- The trailing `while (... last is ADP or PRON ...) pop()` loop. -/
def stripTrailing (l : List Span) : List Span :=
  (l.reverse.dropWhile (fun a => decide (a.type = "ADP" ∨ a.type = "PRON"))).reverse

/-- `findAdjAttributes(tokens, pos, selectedEventNoun, selectedProperName,
eventNounIndex, selectedDateIndex, backward)`. -/
def findAdjAttributes (tokens pos : List String) (selectedEventNoun : Span)
    (selectedProperName : Option ProperName) (eventNounIndex selectedDateIndex : Int)
    (backward : Bool) : Option (List Span) :=
  let stringTokens := tokens
  let eventNounTokenIndex := arrIndexOf stringTokens selectedEventNoun.value
  if eventNounTokenIndex ≤ 0 then none
  else
    match findAdjAux tokens pos selectedProperName eventNounIndex selectedDateIndex backward
        eventNounTokenIndex (tokens.length + pos.length + 2)
        (if backward then -1 else 1) 0 [] with
    | none => none
    | some collected =>
      let selectedAdjAttributes := stripTrailing collected
      if selectedAdjAttributes.length = 0 then none else some selectedAdjAttributes

/-! ### Selection assembly, date cleanup, parsing bridge, title -/

/-- Ascending stable sort by `index` (the host `sort((a, b) => a.index - b.index)`
of a modern engine is stable, and a stable sort by a total preorder has a
unique result). -/
def sortByIndex (l : List Span) : List Span :=
  List.insertionSort (fun a b => a.index ≤ b.index) l

/-- `getSelectionArray`: the cleaned date spans re-mapped through
`text.indexOf`, the event noun, the proper name, then both adjacency
directions, sorted by offset. -/
def getSelectionArray (text : String) (dates : List Detail) (selectedEventNoun : Span)
    (backwardsAdjAttributes forwardAdjAttributes : Option (List Span))
    (selectedProperName : Option ProperName) : List Span :=
  let selection := dates.map (fun date => (⟨date.value, strIndexOf text date.value, date.type⟩ : Span))
  let selection := selection ++ [selectedEventNoun]
  let selection := selection ++
    (match selectedProperName with
     | some p => [(⟨p.value, p.index, p.type⟩ : Span)]
     | none => [])
  let selection := selection ++ backwardsAdjAttributes.getD []
  let selection := selection ++ forwardAdjAttributes.getD []
  sortByIndex selection

/-- The date-component categories of `cleanJunkDates`. -/
def dateComponentPatterns : List String := ["date", "ordinalDate", "ordinalDateReverse"]

/-- The time categories of `cleanJunkDates`. -/
def timePatterns : List String := ["exactTime", "timeRange"]

/-- `cleanJunkDates(dates)`: when more than one date component (resp. time)
candidate exists, keep only the elements whose value equals the first such
candidate's value, plus all elements of the other category. -/
def cleanJunkDates (dates : List Detail) : List Detail :=
  let dateComponents := dates.filter (fun d => decide (d.type ∈ dateComponentPatterns))
  let times := dates.filter (fun t => decide (t.type ∈ timePatterns))
  let cleanDates := dates
  let cleanDates :=
    match dateComponents with
    | d0 :: _ :: _ =>
      cleanDates.filter (fun d => decide (d.type ∈ timePatterns ∨ d.value = d0.value))
    | _ => cleanDates
  let cleanDates :=
    match times with
    | t0 :: _ :: _ =>
      cleanDates.filter (fun d => decide (d.type ∈ dateComponentPatterns ∨ d.value = t0.value))
    | _ => cleanDates
  cleanDates

/-- `array.toString()`: the elements joined by commas. -/
def joinComma : List String → String
  | [] => ""
  | [s] => s
  | s :: rest => s ++ "," ++ joinComma rest

/-- `dates.map(e => e.value).toString().replaceAll(",", " ")`: join the
surviving values with commas, then turn every comma into a space. -/
def timeRelatedString (dates : List Detail) : String :=
  String.mk ((joinComma (dates.map (fun e => e.value))).toList.map
    (fun c => if c = ',' then ' ' else c))

/-- `getEventTitle`: reversed backward attributes, the noun, the forward
attributes, then the rendered person suffix (spacing quirks preserved). -/
def getEventTitle (backwardsAdjAttributes forwardAdjAttributes : Option (List Span))
    (selectedEventNoun : Span) (selectedProperName : Option ProperName) : String :=
  let eventTitle :=
    match backwardsAdjAttributes with
    | some l => l.reverse.foldl (fun s a => s ++ a.value ++ " ") ""
    | none => ""
  let eventTitle := eventTitle ++ selectedEventNoun.value
  let eventTitle :=
    match forwardAdjAttributes with
    | some l => l.foldl (fun s a => s ++ a.value ++ " ") (eventTitle ++ " ")
    | none => eventTitle
  match selectedProperName with
  | some p => eventTitle ++ " " ++ p.parsedValue
  | none => eventTitle

/-- `matchedEvent != null && matchedEvent.processed == true`. -/
def matchedEventProcessed (matchedEvent : Option Event) : Bool :=
  match matchedEvent with
  | some e => e.processed
  | none => false

/-! ### `process` -/

/-- `process(sentence)`, the public pipeline.  `ready` is the `_ready` flag
set by `init()`. -/
def process (env : Env) (ready : Bool) (sentence : Sentence) : ProcessOut :=
  if !ready then ProcessOut.nullR
  else
    let matchedEvent := env.syntacticCheck sentence
    if matchedEventProcessed matchedEvent then ProcessOut.nullR
    else
      let caseInsensitiveText := toLowerStr sentence.value
      let mainCustomEntities := env.tagMain caseInsensitiveText
      let secondaryCustomEntities := env.tagSecondary caseInsensitiveText
      let tokens := env.tokensOf caseInsensitiveText
      let pos := env.posOf caseInsensitiveText
      let dates := filterDates mainCustomEntities
      let properNames := filterProperNames secondaryCustomEntities
      let eventNouns := filterEventNoun mainCustomEntities
      let _purposes := filterPurposes mainCustomEntities
      if dates.length = 0 then ProcessOut.nullR
      else
        let selectedDateIndex := strIndexOf caseInsensitiveText ((dates.headD ⟨"", ""⟩).value)
        let selectedEventNoun0 := findEventNoun caseInsensitiveText eventNouns selectedDateIndex
        let nounStep : Option Span :=
          if selectedEventNoun0.index = -1 then
            let selectedIntentionalVerb :=
              findIntentionalVerb mainCustomEntities tokens pos caseInsensitiveText
                selectedDateIndex
            if selectedIntentionalVerb.index = -1 then none
            else some ⟨selectedIntentionalVerb.noun,
              strIndexOf caseInsensitiveText selectedIntentionalVerb.noun, "eventNoun"⟩
          else some selectedEventNoun0
        match nounStep with
        | none => ProcessOut.nullR
        | some selectedEventNoun =>
          match findProperName sentence.value properNames selectedEventNoun with
          | Except.error _ => ProcessOut.crash
          | Except.ok selectedProperName =>
            let backwardsAdjAttributes := findAdjAttributes tokens pos selectedEventNoun
              selectedProperName selectedEventNoun.index selectedDateIndex true
            let forwardAdjAttributes := findAdjAttributes tokens pos selectedEventNoun
              selectedProperName selectedEventNoun.index selectedDateIndex false
            let cleanDates := cleanJunkDates dates
            let selection := getSelectionArray caseInsensitiveText cleanDates selectedEventNoun
              backwardsAdjAttributes forwardAdjAttributes selectedProperName
            match env.parseDates (timeRelatedString cleanDates) with
            | none => ProcessOut.undef
            | some dateRange =>
              let checked :=
                match matchedEvent with
                | none =>
                  let s1 := injectSemanticFields sentence dateRange.start dateRange.stop
                    selectedEventNoun.value
                  let eventTitle := getEventTitle backwardsAdjAttributes forwardAdjAttributes
                    selectedEventNoun selectedProperName
                  let s2 : Sentence := { s1 with eventNoun := some eventTitle }
                  (env.semanticCheck s2, s2)
                | some e => (some e, sentence)
              if matchedEventProcessed checked.1 then ProcessOut.nullR
              else
                match checked.1 with
                | none => ProcessOut.success ⟨selection, env.createNewEvent checked.2⟩ true
                | some e => ProcessOut.success ⟨selection, e⟩ false

/-! ### Specification-side nearest-candidate selection

`minDistCand` renders the spec's tie-break policy literally: "closest wins,
first-encountered candidate wins ties" — the first list element attaining
the minimal distance.  `bestBelow` is the left-to-right semantics of the
implementation's scan loop with its running sentinel distance. -/

/-- The first candidate attaining the minimal value of `f` (spec wording). -/
def minDistCand (f : Detail → Nat) : List Detail → Option Detail
  | [] => none
  | n :: rest =>
    match minDistCand f rest with
    | none => some n
    | some b => if f b < f n then some b else some n

/-- The candidate a strict-improvement scan starting at sentinel `d` settles
on. -/
def bestBelow (f : Detail → Nat) : Nat → List Detail → Option Detail
  | _, [] => none
  | d, n :: rest =>
    if f n < d then
      match bestBelow f (f n) rest with
      | none => some n
      | some b => some b
    else bestBelow f d rest

theorem minDistCand_eq_none {f : Detail → Nat} :
    ∀ {ns : List Detail}, minDistCand f ns = none → ns = [] := by
  intro ns h
  cases ns with
  | nil => rfl
  | cons n rest =>
    simp only [minDistCand] at h
    cases hmc : minDistCand f rest with
    | none => simp only [hmc] at h; exact absurd h (Option.some_ne_none n)
    | some b => simp only [hmc] at h; by_cases hb : f b < f n <;> simp [hb] at h

theorem minDistCand_mem {f : Detail → Nat} :
    ∀ {ns : List Detail} {b : Detail}, minDistCand f ns = some b → b ∈ ns := by
  intro ns
  induction ns with
  | nil => intro b h; exact absurd h (by simp [minDistCand])
  | cons n rest ih =>
    intro b h
    simp only [minDistCand] at h
    cases hmc : minDistCand f rest with
    | none => simp only [hmc] at h; exact Option.some_injective _ h ▸ List.mem_cons_self n rest
    | some c =>
      simp only [hmc] at h
      by_cases hc : f c < f n
      · rw [if_pos hc] at h
        exact List.mem_cons_of_mem n (Option.some_injective _ h ▸ ih hmc)
      · rw [if_neg hc] at h
        exact Option.some_injective _ h ▸ List.mem_cons_self n rest

theorem minDistCand_min {f : Detail → Nat} :
    ∀ {ns : List Detail} {b : Detail}, minDistCand f ns = some b → ∀ m ∈ ns, f b ≤ f m := by
  intro ns
  induction ns with
  | nil => intro b h; exact absurd h (by simp [minDistCand])
  | cons n rest ih =>
    intro b h m hm
    simp only [minDistCand] at h
    cases hmc : minDistCand f rest with
    | none =>
      simp only [hmc] at h
      obtain rfl : n = b := Option.some_injective _ h
      rcases List.mem_cons.mp hm with rfl | hm2
      · exact le_refl _
      · exact absurd (minDistCand_eq_none hmc ▸ hm2) (List.not_mem_nil m)
    | some c =>
      simp only [hmc] at h
      by_cases hc : f c < f n
      · rw [if_pos hc] at h
        obtain rfl : c = b := Option.some_injective _ h
        rcases List.mem_cons.mp hm with rfl | hm2
        · exact le_of_lt hc
        · exact ih hmc m hm2
      · rw [if_neg hc] at h
        obtain rfl : n = b := Option.some_injective _ h
        rcases List.mem_cons.mp hm with rfl | hm2
        · exact le_refl _
        · exact le_trans (Nat.le_of_not_lt hc) (ih hmc m hm2)

theorem bestBelow_eq_none {f : Detail → Nat} :
    ∀ {ns : List Detail} {d : Nat}, (∀ n ∈ ns, d ≤ f n) → bestBelow f d ns = none := by
  intro ns
  induction ns with
  | nil => intro d _; rfl
  | cons n rest ih =>
    intro d h
    have hn : ¬ f n < d := Nat.not_lt.mpr (h n (List.mem_cons_self n rest))
    simp only [bestBelow, if_neg hn]
    exact ih (fun m hm => h m (List.mem_cons_of_mem n hm))

theorem bestBelow_mem {f : Detail → Nat} :
    ∀ {ns : List Detail} {d : Nat} {b : Detail}, bestBelow f d ns = some b → b ∈ ns := by
  intro ns
  induction ns with
  | nil => intro d b h; exact absurd h (by simp [bestBelow])
  | cons n rest ih =>
    intro d b h
    simp only [bestBelow] at h
    by_cases hn : f n < d
    · rw [if_pos hn] at h
      cases hbc : bestBelow f (f n) rest with
      | none => simp only [hbc] at h; exact Option.some_injective _ h ▸ List.mem_cons_self n rest
      | some c =>
        simp only [hbc] at h
        exact List.mem_cons_of_mem n (Option.some_injective _ h ▸ ih hbc)
    · rw [if_neg hn] at h
      exact List.mem_cons_of_mem n (ih h)

theorem bestBelow_eq_minDistCand {f : Detail → Nat} :
    ∀ {ns : List Detail} {d : Nat}, (∃ n ∈ ns, f n < d) → bestBelow f d ns = minDistCand f ns := by
  intro ns
  induction ns with
  | nil => intro d h; exact absurd h (by simp)
  | cons n rest ih =>
    intro d h
    simp only [bestBelow, minDistCand]
    by_cases hn : f n < d
    · rw [if_pos hn]
      by_cases hrest : ∃ m ∈ rest, f m < f n
      · rw [ih hrest]
        obtain ⟨m, hm, hmlt⟩ := hrest
        cases hmc : minDistCand f rest with
        | none => exact absurd (minDistCand_eq_none hmc ▸ hm) (List.not_mem_nil m)
        | some b =>
          have hbn : f b < f n := lt_of_le_of_lt (minDistCand_min hmc m hm) hmlt
          simp [hbn]
      · push_neg at hrest
        rw [bestBelow_eq_none hrest]
        cases hmc : minDistCand f rest with
        | none => simp
        | some b =>
          have hnb : ¬ f b < f n := Nat.not_lt.mpr (hrest b (minDistCand_mem hmc))
          simp [hnb]
    · rw [if_neg hn]
      obtain ⟨m, hm, hmlt⟩ := h
      rcases List.mem_cons.mp hm with rfl | hm2
      · exact absurd hmlt hn
      have hrest : ∃ x ∈ rest, f x < d := ⟨m, hm2, hmlt⟩
      rw [ih hrest]
      cases hmc : minDistCand f rest with
      | none => exact absurd (minDistCand_eq_none hmc ▸ hm2) (List.not_mem_nil m)
      | some b =>
        have hbn : f b < f n :=
          lt_of_lt_of_le (lt_of_le_of_lt (minDistCand_min hmc m hm2) hmlt) (Nat.le_of_not_lt hn)
        simp [hbn]

/-- The nearest-candidate scan shared by `findEventNoun` and
`findIntentionalVerb`, characterised through `bestBelow`. -/
theorem nearest_foldl (text : String) (anchor : Int) :
    ∀ (ns : List Detail) (sel : Span) (dist : Nat),
    ns.foldl
      (fun acc n =>
        if (strIndexOf text n.value - anchor).natAbs < acc.2 then
          ((⟨n.value, strIndexOf text n.value, n.type⟩ : Span),
            (strIndexOf text n.value - anchor).natAbs)
        else acc)
      (sel, dist)
    = match bestBelow (fun n => (strIndexOf text n.value - anchor).natAbs) dist ns with
      | none => (sel, dist)
      | some b =>
        ((⟨b.value, strIndexOf text b.value, b.type⟩ : Span),
          (strIndexOf text b.value - anchor).natAbs) := by
  intro ns
  induction ns with
  | nil => intro sel dist; rfl
  | cons n rest ih =>
    intro sel dist
    simp only [List.foldl_cons, bestBelow]
    by_cases hn : (strIndexOf text n.value - anchor).natAbs < dist
    · rw [if_pos hn, if_pos hn, ih]
      cases hbc : bestBelow (fun n => (strIndexOf text n.value - anchor).natAbs)
          ((strIndexOf text n.value - anchor).natAbs) rest with
      | none => rfl
      | some b => rfl
    · rw [if_neg hn, if_neg hn, ih]

/-- `findEventNoun` characterised through the scan semantics. -/
theorem findEventNoun_eq (text : String) (eventNouns : List Detail) (selectedVerbIndex : Int) :
    findEventNoun text eventNouns selectedVerbIndex =
      match bestBelow (fun n => (strIndexOf text n.value - selectedVerbIndex).natAbs) 1000
          eventNouns with
      | none => ⟨"", -1, ""⟩
      | some b => ⟨b.value, strIndexOf text b.value, b.type⟩ := by
  simp only [findEventNoun]
  rw [nearest_foldl]
  cases bestBelow (fun n => (strIndexOf text n.value - selectedVerbIndex).natAbs) 1000
      eventNouns with
  | none => rfl
  | some b => rfl

/-- The resolved event noun is either the sentinel `{value: "", index: -1}` or
was built from one of the candidates. -/
theorem findEventNoun_default_or_mem (text : String) (eventNouns : List Detail)
    (selectedVerbIndex : Int) :
    findEventNoun text eventNouns selectedVerbIndex = ⟨"", -1, ""⟩ ∨
    ∃ n ∈ eventNouns, findEventNoun text eventNouns selectedVerbIndex
      = ⟨n.value, strIndexOf text n.value, n.type⟩ := by
  rw [findEventNoun_eq]
  cases hb : bestBelow (fun n => (strIndexOf text n.value - selectedVerbIndex).natAbs) 1000
      eventNouns with
  | none => exact Or.inl rfl
  | some b => exact Or.inr ⟨b, bestBelow_mem hb, rfl⟩

/-! ### Claim C2 -/

/-- A 1001-character sentence text whose only event-noun candidate sits 1000
characters away from the date anchor. -/
def c2Text : String := String.mk (List.replicate 1000 'a' ++ ['b'])

/-- The single event-noun candidate for the C2 counterexample. -/
def c2Nouns : List Detail := [⟨"b", "eventNoun"⟩]

theorem indexOfAux_replicate (k : Nat) :
    indexOfAux ['b'] (List.replicate k 'a' ++ ['b']) = some k := by
  induction k with
  | zero => rfl
  | succ k ih =>
    rw [List.replicate_succ, List.cons_append]
    show (indexOfAux ['b'] (List.replicate k 'a' ++ ['b'])).map (· + 1) = some (k + 1)
    rw [ih]
    rfl

theorem c2Text_indexOf : strIndexOf c2Text ("b") = 1000 := by
  have h : indexOfAux ("b").toList c2Text.toList = some 1000 := indexOfAux_replicate 1000
  unfold strIndexOf
  rw [h]
  rfl

/-- C2, counterexample.  The claim says that for *every* non-empty candidate
list the resolved event noun is the candidate nearest to the anchor.  With
anchor offset `0` and the sole candidate at offset `1000`, the distance
equals the initial sentinel `1000`, the strict-improvement scan never fires,
and `findEventNoun` yields its sentinel `{value: "", index: -1}` instead of
the (unique, hence nearest) candidate `"b"`. -/
theorem c2_counterexample :
    findEventNoun c2Text c2Nouns 0 = ⟨"", -1, ""⟩ ∧
    minDistCand (fun n => (strIndexOf c2Text n.value - 0).natAbs) c2Nouns
      = some ⟨"b", "eventNoun"⟩ ∧
    (Span.mk "" (-1) "").value ≠ (Detail.mk "b" "eventNoun").value := by
  have hb : bestBelow (fun n => (strIndexOf c2Text n.value - 0).natAbs) 1000 c2Nouns = none := by
    simp only [c2Nouns, bestBelow, c2Text_indexOf]
    norm_num
  refine ⟨?_, rfl, by decide⟩
  rw [findEventNoun_eq, hb]

/-- C2 (amended): among event-noun candidates, the resolved event noun is the
one whose first-occurrence offset in the lower-cased sentence has the
smallest absolute difference from the date anchor offset, the
first-encountered candidate winning ties (strict less-than in scan order),
*provided* that nearest candidate's distance is below the implementation's
initial sentinel distance of 1000; otherwise no event noun is resolved. -/
theorem c2_amended (text : String) (eventNouns : List Detail) (selectedVerbIndex : Int)
    (b : Detail)
    (hb : minDistCand (fun n => (strIndexOf text n.value - selectedVerbIndex).natAbs)
      eventNouns = some b)
    (hlt : (strIndexOf text b.value - selectedVerbIndex).natAbs < 1000) :
    findEventNoun text eventNouns selectedVerbIndex
      = ⟨b.value, strIndexOf text b.value, b.type⟩ := by
  rw [findEventNoun_eq, bestBelow_eq_minDistCand ⟨b, minDistCand_mem hb, hlt⟩, hb]

/-- C2, witness for the amended theorem at a concrete input. -/
theorem c2_witness :
    findEventNoun ("board meeting on monday") [⟨"board", "eventNoun"⟩, ⟨"meeting", "eventNoun"⟩]
      17 = ⟨"meeting", 6, "eventNoun"⟩ :=
  c2_amended ("board meeting on monday")
    [⟨"board", "eventNoun"⟩, ⟨"meeting", "eventNoun"⟩] 17 ⟨"meeting", "eventNoun"⟩
    (by decide) (by decide)

/-! ### Claim C6 -/

/-- C6 (amended): for a sentence with no event-noun candidate but at least
one intentional-verb match whose distance to the date anchor is below the
implementation's sentinel distance 1000, the fallback picks the
intentional-verb match nearest to the date anchor (first encountered wins
ties) and derives the event-noun phrase as
`<token at the first VERB-tagged position of the whole sentence> <last word
of the matched phrase>` — the verb token is the sentence's first VERB, not
necessarily the verb of the matched phrase; with no intentional-verb
candidate at all the fallback keeps index `-1`, upon which `process`
returns null (see the C8 theorem). -/
theorem c6_amended (customEntities : List Detail) (tokens pos : List String)
    (text : String) (selectedDateIndex : Int) (b : Detail)
    (hb : minDistCand (fun n => (strIndexOf text n.value - selectedDateIndex).natAbs)
      (customEntities.filter (fun d => decide (d.type = "intentionalVerb"))) = some b)
    (hlt : (strIndexOf text b.value - selectedDateIndex).natAbs < 1000) :
    findIntentionalVerb customEntities tokens pos text selectedDateIndex =
      ⟨b.value, strIndexOf text b.value, b.type,
        ((listGetI tokens (arrIndexOf pos ("VERB"))).getD ("undefined")) ++ " " ++
          (splitSpace b.value).getLastD ("")⟩ := by
  have hmem := minDistCand_mem hb
  have hne : ¬ (customEntities.filter (fun d => decide (d.type = "intentionalVerb"))).length = 0 := by
    intro h0
    rw [List.length_eq_zero] at h0
    rw [h0] at hmem
    exact List.not_mem_nil b hmem
  simp only [findIntentionalVerb, if_neg hne]
  rw [nearest_foldl, bestBelow_eq_minDistCand ⟨b, hmem, hlt⟩, hb]

/-- The tagger output for the C6 counterexample: one intentional-verb match
`"plan a meeting"`. -/
def c6CustomEntities : List Detail := [⟨"plan a meeting", "intentionalVerb"⟩]

/-- Token sequence of the C6 counterexample sentence. -/
def c6Tokens : List String := ["run", "plan", "a", "meeting"]

/-- POS sequence of the C6 counterexample sentence: `"run"` is a VERB that
precedes the matched phrase's verb `"plan"`. -/
def c6Pos : List String := ["VERB", "VERB", "DET", "NOUN"]

/-- The C6 counterexample sentence text. -/
def c6Text : String := "run plan a meeting"

/-- C6, counterexample.  The claim says the derived event-noun phrase is
`<verb token> <last word of the matched phrase>` "where the verb token is
the verb of that matched phrase".  The code instead takes
`tokenValue[pos.indexOf("VERB")]`, the first VERB-tagged token of the whole
sentence: here the matched phrase is `"plan a meeting"` (its verb is
`"plan"`), yet the derived phrase is `"run meeting"`, built from the
earlier, unrelated verb `"run"`. -/
theorem c6_counterexample :
    (findIntentionalVerb c6CustomEntities c6Tokens c6Pos c6Text 4).noun = "run meeting" ∧
    ("run meeting" : String) ≠ "plan meeting" := by
  exact ⟨by decide, by decide⟩

/-- C6, witness for the amended theorem at a concrete input. -/
theorem c6_witness :
    findIntentionalVerb c6CustomEntities c6Tokens c6Pos c6Text 4 =
      ⟨"plan a meeting", 4, "intentionalVerb", "run meeting"⟩ := by
  have h := c6_amended c6CustomEntities c6Tokens c6Pos c6Text 4 ⟨"plan a meeting", "intentionalVerb"⟩
    (by decide) (by decide)
  rw [h]
  decide

/-! ### Claim C3 -/

/-- Everything the walk loop ever appends satisfies the collection
conditions: an allowed POS tag, not the person name's value, and a computed
offset different from the date anchor's. -/
theorem findAdjAux_sound (tokens pos : List String) (sp : Option ProperName)
    (eni sdi : Int) (bw : Bool) (enti : Int) :
    ∀ (fuel : Nat) (off cum : Int) (acc res : List Span),
    findAdjAux tokens pos sp eni sdi bw enti fuel off cum acc = some res →
    (∀ a ∈ acc,
      (a.type = "NOUN" ∨ a.type = "ADJ" ∨ a.type = "ADP" ∨ a.type = "PRON") ∧
      (∀ q, sp = some q → a.value ≠ q.value) ∧ a.index ≠ sdi) →
    ∀ a ∈ res,
      (a.type = "NOUN" ∨ a.type = "ADJ" ∨ a.type = "ADP" ∨ a.type = "PRON") ∧
      (∀ q, sp = some q → a.value ≠ q.value) ∧ a.index ≠ sdi := by
  intro fuel
  induction fuel with
  | zero =>
    intro off cum acc res h hacc
    simp only [findAdjAux] at h
    exact Option.some_injective _ h ▸ hacc
  | succ fuel ih =>
    intro off cum acc res h hacc
    simp only [findAdjAux] at h
    cases hget : listGetI pos (enti + off) with
    | none =>
      rw [hget] at h
      exact Option.some_injective _ h ▸ hacc
    | some p =>
      rw [hget] at h
      simp only at h
      by_cases htag : adjTagOk p = true
      · rw [if_pos htag] at h
        by_cases hperson : personMatches sp ((listGetI tokens (enti + off)).getD ("")) = true
        · rw [if_pos hperson] at h
          exact absurd h (by simp)
        · rw [if_neg hperson] at h
          by_cases hdate : cum +
              (if bw then eni - (((listGetI tokens (enti + off)).getD ("")).length + 1 : Int)
               else eni + (((listGetI tokens (enti + off)).getD ("")).length + 1 : Int)) = sdi
          · rw [if_pos hdate] at h
            exact absurd h (by simp)
          · rw [if_neg hdate] at h
            refine ih _ _ _ _ h ?_
            intro a ha
            rcases List.mem_append.mp ha with hmem | hmem
            · exact hacc a hmem
            · have ha2 : a = (⟨(listGetI tokens (enti + off)).getD (""),
                cum + (if bw then eni - (((listGetI tokens (enti + off)).getD ("")).length + 1 : Int)
                  else eni + (((listGetI tokens (enti + off)).getD ("")).length + 1 : Int)), p⟩ : Span) := by
                simpa using hmem
              subst ha2
              refine ⟨of_decide_eq_true htag, ?_, hdate⟩
              intro q hq
              rw [hq] at hperson
              simpa [personMatches] using hperson
      · rw [if_neg htag] at h
        exact Option.some_injective _ h ▸ hacc

/-- Membership in the stripped list implies membership in the collected
list. -/
theorem mem_stripTrailing {l : List Span} {a : Span} (h : a ∈ stripTrailing l) : a ∈ l := by
  unfold stripTrailing at h
  rw [List.mem_reverse] at h
  exact List.mem_reverse.mp ((List.dropWhile_sublist _).mem h)

/-- The stripped list never ends in an `ADP` or `PRON` span. -/
theorem stripTrailing_getLast {l : List Span} {a : Span}
    (h : (stripTrailing l).getLast? = some a) : ¬ (a.type = "ADP" ∨ a.type = "PRON") := by
  unfold stripTrailing at h
  rw [List.getLast?_reverse] at h
  have h2 := List.head?_dropWhile_not
    (fun x => decide (x.type = "ADP" ∨ x.type = "PRON")) l.reverse
  rw [h] at h2
  simpa using h2

/-- C3 (confirmed): whenever a direction of the adjacency walk returns
attributes, the returned list is non-empty, every returned span was collected
under an allowed POS tag (`NOUN`, `ADJ`, `ADP` or `PRON`), none of them
equals the resolved person name's value, none of them carries the date
anchor's offset (otherwise the whole direction would have been discarded),
and after stripping the list does not end in an `ADP` or `PRON` span. -/
theorem c3_walk_sound (tokens pos : List String) (selectedEventNoun : Span)
    (sp : Option ProperName) (eni sdi : Int) (bw : Bool) (l : List Span)
    (h : findAdjAttributes tokens pos selectedEventNoun sp eni sdi bw = some l) :
    l ≠ [] ∧
    (∀ a ∈ l, a.type = "NOUN" ∨ a.type = "ADJ" ∨ a.type = "ADP" ∨ a.type = "PRON") ∧
    (∀ a ∈ l, ∀ q, sp = some q → a.value ≠ q.value) ∧
    (∀ a ∈ l, a.index ≠ sdi) ∧
    (∀ a, l.getLast? = some a → a.type ≠ "ADP" ∧ a.type ≠ "PRON") := by
  unfold findAdjAttributes at h
  by_cases hidx : arrIndexOf tokens selectedEventNoun.value ≤ 0
  · rw [if_pos hidx] at h
    exact absurd h (by simp)
  · rw [if_neg hidx] at h
    cases haux : findAdjAux tokens pos sp eni sdi bw
        (arrIndexOf tokens selectedEventNoun.value)
        (tokens.length + pos.length + 2) (if bw then -1 else 1) 0 [] with
    | none => rw [haux] at h; exact absurd h (by simp)
    | some collected =>
      rw [haux] at h
      simp only at h
      by_cases hlen : (stripTrailing collected).length = 0
      · rw [if_pos hlen] at h
        exact absurd h (by simp)
      · rw [if_neg hlen] at h
        obtain rfl : stripTrailing collected = l := Option.some_injective _ h
        have hsound := findAdjAux_sound tokens pos sp eni sdi bw
          (arrIndexOf tokens selectedEventNoun.value)
          (tokens.length + pos.length + 2) (if bw then -1 else 1) 0 [] collected haux
          (by intro a ha; exact absurd ha (List.not_mem_nil a))
        refine ⟨fun hnil => hlen (by rw [hnil]; rfl), ?_, ?_, ?_, ?_⟩
        · intro a ha
          exact (hsound a (mem_stripTrailing ha)).1
        · intro a ha
          exact (hsound a (mem_stripTrailing ha)).2.1
        · intro a ha
          exact (hsound a (mem_stripTrailing ha)).2.2
        · intro a ha
          have := stripTrailing_getLast ha
          exact ⟨fun hc => this (Or.inl hc), fun hc => this (Or.inr hc)⟩

/-- C3, witness: a concrete successful backward walk over
`["board", "meeting"]`. -/
theorem c3_witness : ([(⟨"board", 0, "NOUN"⟩ : Span)] : List Span) ≠ [] :=
  (c3_walk_sound ["board", "meeting"] ["NOUN", "NOUN"] ⟨"meeting", 6, "eventNoun"⟩
    none 6 100 true [⟨"board", 0, "NOUN"⟩] (by decide)).1

/-! ### Claim C10 -/

theorem arrIndexOf_head [DecidableEq α] (x : α) (rest : List α) :
    arrIndexOf (x :: rest) x = 0 := by
  simp [arrIndexOf]

theorem arrIndexOf_not_mem [DecidableEq α] {l : List α} {x : α} (h : x ∉ l) :
    arrIndexOf l x = -1 := by
  induction l with
  | nil => rfl
  | cons a rest ih =>
    have hne : ¬ a = x := fun hc => h (hc ▸ List.mem_cons_self a rest)
    have hx : x ∉ rest := fun hc => h (List.mem_cons_of_mem a hc)
    simp only [arrIndexOf, if_neg hne, ih hx]
    rfl

/-- C10 (confirmed): when the resolved event noun is the first token of the
token sequence, or its value does not occur among the tokens at all,
`tokens.indexOf(value) <= 0` makes both the backward and the forward
adjacency walk return no attributes — the forward direction is suppressed as
well — so the event title is the bare event noun followed only by the
rendered person suffix (if any). -/
theorem c10_first_token_no_attributes (tokens pos : List String) (selectedEventNoun : Span)
    (sp : Option ProperName) (eni sdi : Int)
    (h : (∃ rest, tokens = selectedEventNoun.value :: rest) ∨ selectedEventNoun.value ∉ tokens) :
    findAdjAttributes tokens pos selectedEventNoun sp eni sdi true = none ∧
    findAdjAttributes tokens pos selectedEventNoun sp eni sdi false = none ∧
    getEventTitle (findAdjAttributes tokens pos selectedEventNoun sp eni sdi true)
        (findAdjAttributes tokens pos selectedEventNoun sp eni sdi false)
        selectedEventNoun sp =
      (match sp with
       | some p => selectedEventNoun.value ++ " " ++ p.parsedValue
       | none => selectedEventNoun.value) := by
  have hidx : arrIndexOf tokens selectedEventNoun.value ≤ 0 := by
    rcases h with ⟨rest, rfl⟩ | hnm
    · rw [arrIndexOf_head]
    · rw [arrIndexOf_not_mem hnm]
      decide
  have hbw : findAdjAttributes tokens pos selectedEventNoun sp eni sdi true = none := by
    unfold findAdjAttributes
    rw [if_pos hidx]
  have hfw : findAdjAttributes tokens pos selectedEventNoun sp eni sdi false = none := by
    unfold findAdjAttributes
    rw [if_pos hidx]
  refine ⟨hbw, hfw, ?_⟩
  rw [hbw, hfw]
  cases sp with
  | none => rfl
  | some p => rfl

/-- C10, witness at a concrete input (noun is the first token). -/
theorem c10_witness :
    findAdjAttributes ["call", "on", "monday"] ["NOUN", "ADP", "NOUN"]
      (⟨"call", 0, "eventNoun"⟩ : Span) none 0 5 true = none :=
  (c10_first_token_no_attributes ["call", "on", "monday"] ["NOUN", "ADP", "NOUN"]
    ⟨"call", 0, "eventNoun"⟩ none 0 5 (Or.inl ⟨["on", "monday"], rfl⟩)).1

/-! ### Claim C4 -/

/-- Two date-component fragments sharing one value: the cleanup's
value-equality filter keeps both. -/
def c4Dates : List Detail := [⟨"may", "date"⟩, ⟨"may", "ordinalDate"⟩]

/-- C4, counterexample.  The claim says that with more than one
date-component fragment the cleanup retains *exactly the first-encountered*
date-component fragment, so at most one survives.  The implementation
filters by *value* equality with the first fragment, so both fragments of
`c4Dates` (same value `"may"`, different categories) survive: two
date components remain after cleanup. -/
theorem c4_counterexample :
    cleanJunkDates c4Dates = c4Dates ∧
    ((cleanJunkDates c4Dates).filter
      (fun x => decide (x.type ∈ dateComponentPatterns))).length = 2 := by
  exact ⟨by decide, by decide⟩

/-- C4 (amended): a fragment survives cleanup iff it belongs to the input
and, for each over-represented category (more than one date component,
resp. more than one time fragment), it either belongs to the *other*
category or its **value** equals the value of the first-encountered fragment
of the over-represented category.  Hence at most one date-component value
and at most one time value survive, but several equal-valued fragments of
one category all survive together, and fragments of neither category
(`duration`) are dropped whenever a category filter runs. -/
theorem c4_amended (dates : List Detail) (d : Detail) :
    d ∈ cleanJunkDates dates ↔
      d ∈ dates ∧
      (1 < (dates.filter (fun x => decide (x.type ∈ dateComponentPatterns))).length →
        (d.type ∈ timePatterns ∨
          d.value = ((dates.filter (fun x => decide (x.type ∈ dateComponentPatterns))).headD
            ⟨"", ""⟩).value)) ∧
      (1 < (dates.filter (fun x => decide (x.type ∈ timePatterns))).length →
        (d.type ∈ dateComponentPatterns ∨
          d.value = ((dates.filter (fun x => decide (x.type ∈ timePatterns))).headD
            ⟨"", ""⟩).value)) := by
  have hlen : ∀ (x y : Detail) (l : List Detail), 1 < (x :: y :: l).length := by
    intro x y l
    simp only [List.length_cons]
    omega
  unfold cleanJunkDates
  rcases hdc : dates.filter (fun x => decide (x.type ∈ dateComponentPatterns)) with
    _ | ⟨d0, _ | ⟨d1, dtl⟩⟩ <;>
  rcases htm : dates.filter (fun x => decide (x.type ∈ timePatterns)) with
    _ | ⟨t0, _ | ⟨t1, ttl⟩⟩ <;>
  rw [hdc, htm] <;>
  simp [List.mem_filter, hlen, and_assoc]
  all_goals tauto

/-! ### Claim C5 -/

/-- The original-case sentence text of the C5 failing input. -/
def c5Text : String := "Meet with John and amber"

/-- Proper-name candidates: a two-word (adposition-led) candidate followed by
a one-word candidate. -/
def c5ProperNames : List Detail := [⟨"with john", "properName"⟩, ⟨"amber", "properName"⟩]

/-- C5, evaluation at the failing input.  Processing `"with john"` sets the
loop-wide `hasAdp` flag; the next candidate `"amber"` is a single word, so
`adp` is re-assigned to `undefined` while `hasAdp` is still true, and the
host expression `text[pIndex + adp.length + 1]` throws
`TypeError: Cannot read properties of undefined (reading 'length')` instead
of rejecting `"amber"` for its lower-case first letter. -/
theorem c5_crash_eval :
    findProperName c5Text c5ProperNames ⟨"meet", 0, "eventNoun"⟩ = Except.error () := by
  rfl

/-! ### Claim C1 -/

/-- C1 (confirmed): whenever the external syntactic check returns an event
whose `processed` flag is true, `process` returns null straight away.  The
environment — including `createNewEvent` and both taggers — is universally
quantified and the result does not depend on it, so no tagging, filtering or
event creation can have been observed; and since `process` is a pure
function of `(env, ready, sentence)`, a second call on the identical
unmodified sentence returns null again, with no duplicate event (the only
call site of `createNewEvent` yields a `success _ true` outcome, not
`nullR`). -/
theorem c1_processed_syntactic_null (env : Env) (ready : Bool) (s : Sentence) (e : Event)
    (hsyn : env.syntacticCheck s = some e) (hproc : e.processed = true) :
    process env ready s = ProcessOut.nullR := by
  cases ready with
  | false => rfl
  | true => simp [process, hsyn, matchedEventProcessed, hproc]

/-- A template environment whose collaborators all answer negatively. -/
def baseEnv : Env :=
  { syntacticCheck := fun _ => none
    semanticCheck := fun _ => none
    createNewEvent := fun _ => ⟨false, 1⟩
    tagMain := fun _ => []
    tagSecondary := fun _ => []
    tokensOf := fun _ => []
    posOf := fun _ => []
    parseDates := fun _ => none }

/-- Environment for the C1 witness: the syntactic check matches an already
processed event. -/
def c1Env : Env := { baseEnv with syntacticCheck := fun _ => some ⟨true, 7⟩ }

/-- The C1 witness sentence. -/
def c1S : Sentence := ⟨"board meeting on friday", none, none, none⟩

/-- C1, witness at a concrete input. -/
theorem c1_witness :
    c1Env.syntacticCheck c1S = some ⟨true, 7⟩ ∧ (Event.mk true 7).processed = true ∧
    process c1Env true c1S = ProcessOut.nullR :=
  ⟨rfl, rfl, c1_processed_syntactic_null c1Env true c1S ⟨true, 7⟩ rfl rfl⟩

/-! ### Claim C9 -/

/-- C9 (confirmed): before `init()` has set the ready flag, `process` returns
null for every sentence and *every* environment — the result does not depend
on any collaborator, so no tagging, filtering or identity call can influence
(or be required for) it. -/
theorem c9_not_ready_null (env : Env) (s : Sentence) :
    process env false s = ProcessOut.nullR := rfl

/-! ### Observer vocabulary for the `process` pipeline

Compositional shorthands for the intermediate values `process` computes,
used to state and prove the `process`-level claims; each is definitionally
the corresponding `let`-bound value of `process`. -/

/-- The lower-cased sentence text used during extraction. -/
def ciText (s : Sentence) : String := toLowerStr s.value

/-- The main tagger's custom entities for the sentence. -/
def mainEnts (env : Env) (s : Sentence) : List Detail := env.tagMain (ciText s)

/-- The secondary tagger's custom entities for the sentence. -/
def secEnts (env : Env) (s : Sentence) : List Detail := env.tagSecondary (ciText s)

/-- The primary date anchor offset. -/
def anchorIndex (env : Env) (s : Sentence) : Int :=
  strIndexOf (ciText s) ((filterDates (mainEnts env s)).headD ⟨"", ""⟩).value

/-- The directly resolved event noun (before the verb fallback). -/
def directNoun (env : Env) (s : Sentence) : Span :=
  findEventNoun (ciText s) (filterEventNoun (mainEnts env s)) (anchorIndex env s)

/-- The resolved event noun after the intentional-verb fallback; `none` when
neither path resolves one. -/
def resolvedEventNoun (env : Env) (s : Sentence) : Option Span :=
  if (directNoun env s).index = -1 then
    let selectedIntentionalVerb := findIntentionalVerb (mainEnts env s)
      (env.tokensOf (ciText s)) (env.posOf (ciText s)) (ciText s) (anchorIndex env s)
    if selectedIntentionalVerb.index = -1 then none
    else some ⟨selectedIntentionalVerb.noun,
      strIndexOf (ciText s) selectedIntentionalVerb.noun, "eventNoun"⟩
  else some (directNoun env s)

/-- `process env true s` restated over the observer vocabulary (the bodies
are definitionally equal, see `process_true_eq_spine`). -/
def processSpine (env : Env) (s : Sentence) : ProcessOut :=
  if matchedEventProcessed (env.syntacticCheck s) then ProcessOut.nullR
  else if (filterDates (mainEnts env s)).length = 0 then ProcessOut.nullR
  else
    match resolvedEventNoun env s with
    | none => ProcessOut.nullR
    | some selectedEventNoun =>
      match findProperName s.value (filterProperNames (secEnts env s)) selectedEventNoun with
      | Except.error _ => ProcessOut.crash
      | Except.ok selectedProperName =>
        let backwardsAdjAttributes := findAdjAttributes (env.tokensOf (ciText s))
          (env.posOf (ciText s)) selectedEventNoun selectedProperName selectedEventNoun.index
          (anchorIndex env s) true
        let forwardAdjAttributes := findAdjAttributes (env.tokensOf (ciText s))
          (env.posOf (ciText s)) selectedEventNoun selectedProperName selectedEventNoun.index
          (anchorIndex env s) false
        let cleanDates := cleanJunkDates (filterDates (mainEnts env s))
        let selection := getSelectionArray (ciText s) cleanDates selectedEventNoun
          backwardsAdjAttributes forwardAdjAttributes selectedProperName
        match env.parseDates (timeRelatedString cleanDates) with
        | none => ProcessOut.undef
        | some dateRange =>
          let checked :=
            match env.syntacticCheck s with
            | none =>
              let s1 := injectSemanticFields s dateRange.start dateRange.stop
                selectedEventNoun.value
              let eventTitle := getEventTitle backwardsAdjAttributes forwardAdjAttributes
                selectedEventNoun selectedProperName
              let s2 : Sentence := { s1 with eventNoun := some eventTitle }
              (env.semanticCheck s2, s2)
            | some e => (some e, s)
          if matchedEventProcessed checked.1 then ProcessOut.nullR
          else
            match checked.1 with
            | none => ProcessOut.success ⟨selection, env.createNewEvent checked.2⟩ true
            | some e => ProcessOut.success ⟨selection, e⟩ false

/-- The ready-state pipeline and its observer restatement agree
definitionally. -/
theorem process_true_eq_spine (env : Env) (s : Sentence) :
    process env true s = processSpine env s := rfl

/-! ### Claim C8 -/

theorem findEventNoun_nil (text : String) (anchor : Int) :
    findEventNoun text [] anchor = ⟨"", -1, ""⟩ := rfl

theorem findIntentionalVerb_no_candidates (customEntities : List Detail)
    (tokens pos : List String) (text : String) (sdi : Int)
    (h : customEntities.filter (fun d => decide (d.type = "intentionalVerb")) = []) :
    findIntentionalVerb customEntities tokens pos text sdi = ⟨"", -1, "", ""⟩ := by
  unfold findIntentionalVerb
  rw [h]
  rfl

theorem resolvedEventNoun_none (env : Env) (s : Sentence)
    (heN : filterEventNoun (mainEnts env s) = [])
    (hiv : (mainEnts env s).filter (fun d => decide (d.type = "intentionalVerb")) = []) :
    resolvedEventNoun env s = none := by
  unfold resolvedEventNoun directNoun
  rw [heN, findEventNoun_nil,
    findIntentionalVerb_no_candidates (mainEnts env s) (env.tokensOf (ciText s))
      (env.posOf (ciText s)) (ciText s) (anchorIndex env s) hiv]
  rfl

/-- C8 (amended): the NoEvidence cases terminate negatively and without an
exception *provided the person-resolution TypeError of C5 is not hit*:
(1) zero date-category tagged spans make `process` return null;
(2) no event-noun candidate together with no intentional-verb candidate make
`process` return null;
(3) when the pipeline reaches the date parser (a date span exists, an event
noun was resolved, and `findProperName` returned normally) and the parser
yields no usable range, `process` returns the host `undefined` (a bare
`return` — still a negative nullish result, though not the literal `null`).
If `findProperName` throws instead (C5), the exception propagates out of
`process` (see the C8 counterexample). -/
theorem c8_amended (env : Env) (s : Sentence) :
    ((filterDates (mainEnts env s)).length = 0 → process env true s = ProcessOut.nullR) ∧
    (filterEventNoun (mainEnts env s) = [] →
      (mainEnts env s).filter (fun d => decide (d.type = "intentionalVerb")) = [] →
      process env true s = ProcessOut.nullR) ∧
    (∀ (noun : Span) (spn : Option ProperName),
      matchedEventProcessed (env.syntacticCheck s) = false →
      (filterDates (mainEnts env s)).length ≠ 0 →
      resolvedEventNoun env s = some noun →
      findProperName s.value (filterProperNames (secEnts env s)) noun = Except.ok spn →
      env.parseDates (timeRelatedString (cleanJunkDates (filterDates (mainEnts env s)))) = none →
      process env true s = ProcessOut.undef) := by
  refine ⟨?_, ?_, ?_⟩
  · intro hd
    rw [process_true_eq_spine]
    unfold processSpine
    by_cases hsy : matchedEventProcessed (env.syntacticCheck s) <;> simp [hsy, hd]
  · intro heN hiv
    rw [process_true_eq_spine]
    unfold processSpine
    have hres := resolvedEventNoun_none env s heN hiv
    by_cases hsy : matchedEventProcessed (env.syntacticCheck s) <;>
      by_cases hd : (filterDates (mainEnts env s)).length = 0 <;>
      simp [hsy, hd, hres]
  · intro noun spn hsy hd hres hfpn hparse
    rw [process_true_eq_spine]
    unfold processSpine
    simp [hsy, hd, hres, hfpn, hparse]

/-- Environment of the C8 counterexample: the date parser yields nothing,
and the secondary tagger reports a two-word proper-name candidate followed
by a one-word one — the C5 crash pattern. -/
def c8Env : Env :=
  { baseEnv with
    tagMain := fun _ => [⟨"on monday", "date"⟩, ⟨"call", "eventNoun"⟩]
    tagSecondary := fun _ => [⟨"with john", "properName"⟩, ⟨"amber", "properName"⟩]
    tokensOf := fun _ => ["call", "with", "john", "and", "amber", "on", "monday"]
    posOf := fun _ => ["NOUN", "ADP", "PROPN", "CCONJ", "PROPN", "ADP", "NOUN"] }

/-- The C8 counterexample sentence. -/
def c8S : Sentence := ⟨"Call with John and amber on monday", none, none, none⟩

/-- C8, counterexample.  On this sentence the date parser yields no usable
range (`parseDates` is constantly `none`), so the claim says `process`
returns null — "a negative result, not an exception".  Instead the
proper-name resolution throws before the parser is ever consulted, and
`process` propagates the exception. -/
theorem c8_counterexample :
    process c8Env true c8S = ProcessOut.crash ∧
    c8Env.parseDates (timeRelatedString (cleanJunkDates (filterDates (mainEnts c8Env c8S))))
      = none ∧
    ProcessOut.crash ≠ ProcessOut.nullR := by
  refine ⟨?_, rfl, by decide⟩
  set_option maxRecDepth 10000 in decide

/-- The C8 witness sentence (no tagged spans at all in `baseEnv`). -/
def c8wS : Sentence := ⟨"nothing to see here", none, none, none⟩

/-- C8, witness: the zero-date case of the amended theorem at a concrete
input. -/
theorem c8_witness : process baseEnv true c8wS = ProcessOut.nullR :=
  (c8_amended baseEnv c8wS).1 rfl

/-! ### Claim C7: supporting lemmas -/

theorem indexOfAux_le :
    ∀ (hay needle : List Char) (n : Nat), indexOfAux needle hay = some n →
      n + needle.length ≤ hay.length := by
  intro hay
  induction hay with
  | nil =>
    intro needle n h
    unfold indexOfAux at h
    by_cases hn : needle = ([] : List Char)
    · rw [if_pos hn] at h
      obtain rfl : (0 : Nat) = n := Option.some_injective _ h
      rw [hn]
      simp
    · rw [if_neg hn] at h
      exact absurd h (by simp)
  | cons c rest ih =>
    intro needle n h
    unfold indexOfAux at h
    by_cases hp : needle.isPrefixOf (c :: rest) = true
    · rw [if_pos hp] at h
      obtain rfl : (0 : Nat) = n := Option.some_injective _ h
      have hle : needle.length ≤ (c :: rest).length :=
        (List.isPrefixOf_iff_prefix.mp hp).length_le
      omega
    · rw [if_neg hp] at h
      obtain ⟨m, hm, hmn⟩ := Option.map_eq_some'.mp h
      have := ih needle m hm
      simp only [List.length_cons]
      omega

theorem toList_ne_nil {s : String} (h : s ≠ "") : s.toList ≠ [] := by
  intro hc
  apply h
  cases s with
  | mk data =>
    have hd : data = [] := hc
    rw [hd]

theorem strIndexOf_bounds {hay needle : String}
    (hocc : (indexOfAux needle.toList hay.toList).isSome) (hne : needle ≠ "") :
    0 ≤ strIndexOf hay needle ∧ strIndexOf hay needle < (hay.length : Int) := by
  obtain ⟨n, hn⟩ := Option.isSome_iff_exists.mp hocc
  unfold strIndexOf
  rw [hn]
  refine ⟨Int.natCast_nonneg n, ?_⟩
  have hle := indexOfAux_le hay.toList needle.toList n hn
  have hlen : 1 ≤ needle.toList.length := by
    have h3 := toList_ne_nil hne
    cases h2 : needle.toList with
    | nil => exact absurd h2 h3
    | cons a t => simp
  have hh : hay.toList.length = hay.length := rfl
  have hfin : n < hay.length := by omega
  show (n : Int) < (hay.length : Int)
  exact_mod_cast hfin

theorem cleanJunkDates_subset {dates : List Detail} {d : Detail}
    (hd : d ∈ cleanJunkDates dates) : d ∈ dates := by
  unfold cleanJunkDates at hd
  rcases hdc : dates.filter (fun x => decide (x.type ∈ dateComponentPatterns)) with
    _ | ⟨d0, _ | ⟨d1, dtl⟩⟩ <;>
  rcases htm : dates.filter (fun x => decide (x.type ∈ timePatterns)) with
    _ | ⟨t0, _ | ⟨t1, ttl⟩⟩ <;>
  rw [hdc, htm] at hd <;>
  simp only [List.mem_filter] at hd <;>
  tauto

theorem fpnConsider_index (st : FPNState) (p : Detail) (pIndex : Int) (c : Option Char)
    (hasAdp : Bool) (splitValue : List String) (sen : Span) :
    (fpnConsider st p pIndex c hasAdp splitValue sen).index = st.index ∨
    (fpnConsider st p pIndex c hasAdp splitValue sen).index = pIndex := by
  unfold fpnConsider
  by_cases h1 : isLowerCase c = true
  · rw [if_pos h1]
    exact Or.inl rfl
  · rw [if_neg h1]
    by_cases h2 : (pIndex - sen.index).natAbs < st.distance
    · rw [if_pos h2]
      exact Or.inr rfl
    · rw [if_neg h2]
      exact Or.inl rfl

theorem findProperNameStep_index (text : String) (sen : Span) (st : FPNState) (p : Detail)
    (stN : FPNState) (h : findProperNameStep text sen st p = Except.ok stN) :
    stN.index = st.index ∨ stN.index = strIndexOf (toLowerStr text) p.value := by
  simp only [findProperNameStep] at h
  by_cases hsplit : (splitSpace p.value).length = 1
  · rw [if_pos hsplit] at h
    simp only [Option.isSome_none, Bool.or_false] at h
    by_cases hA : st.hasAdp = true
    · rw [if_pos hA] at h
      exact absurd h (by simp)
    · rw [if_neg hA] at h
      injection h with h2
      subst h2
      exact fpnConsider_index _ _ _ _ _ _ _
  · rw [if_neg hsplit] at h
    simp only [Option.isSome_some, Bool.or_true] at h
    simp only [if_true] at h
    injection h with h2
    subst h2
    exact fpnConsider_index _ _ _ _ _ _ _

theorem findProperNameLoop_index (text : String) (sen : Span) (allP : List Detail) :
    ∀ (props : List Detail) (st stF : FPNState),
    (∀ c ∈ props, c ∈ allP) →
    (st.index = -1 ∨ ∃ c ∈ allP, st.index = strIndexOf (toLowerStr text) c.value) →
    findProperNameLoop text sen st props = Except.ok stF →
    (stF.index = -1 ∨ ∃ c ∈ allP, stF.index = strIndexOf (toLowerStr text) c.value) := by
  intro props
  induction props with
  | nil =>
    intro st stF hsub hinv h
    unfold findProperNameLoop at h
    injection h with h2
    rw [← h2]
    exact hinv
  | cons p rest ih =>
    intro st stF hsub hinv h
    unfold findProperNameLoop at h
    cases hstep : findProperNameStep text sen st p with
    | error e =>
      rw [hstep] at h
      exact absurd h (by simp)
    | ok stN =>
      rw [hstep] at h
      simp only at h
      refine ih stN stF (fun c hc => hsub c (List.mem_cons_of_mem p hc)) ?_ h
      rcases findProperNameStep_index text sen st p stN hstep with heq | heq
      · rw [heq]
        exact hinv
      · exact Or.inr ⟨p, hsub p (List.mem_cons_self p rest), heq⟩

theorem findProperName_index (text : String) (props : List Detail) (sen : Span)
    (p : ProperName) (h : findProperName text props sen = Except.ok (some p)) :
    ∃ c ∈ props, p.index = strIndexOf (toLowerStr text) c.value := by
  unfold findProperName at h
  cases hloop : findProperNameLoop text sen ⟨"", -1, "", 1000, false, none⟩ props with
  | error e =>
    rw [hloop] at h
    exact absurd h (by simp)
  | ok st =>
    rw [hloop] at h
    simp only at h
    by_cases hix : st.index = -1
    · rw [if_pos hix] at h
      exact absurd h (by simp)
    · rw [if_neg hix] at h
      injection h with h2
      have hp : p.index = st.index := by
        rw [← Option.some_injective _ h2]
      have hinv := findProperNameLoop_index text sen props props
        (⟨"", -1, "", 1000, false, none⟩ : FPNState) st
        (fun c hc => hc) (Or.inl rfl) hloop
      rcases hinv with h1 | ⟨c, hc, hcv⟩
      · exact absurd h1 hix
      · exact ⟨c, hc, by rw [hp, hcv]⟩

/-- Validity of all selection offsets when both walk directions contribute
nothing: date spans are re-mapped through `indexOf`, and the noun and person
spans keep their (assumed valid) precomputed offsets. -/
theorem getSelectionArray_valid (text : String) (dates : List Detail) (noun : Span)
    (spn : Option ProperName)
    (hdates : ∀ d ∈ dates, 0 ≤ strIndexOf text d.value ∧
      strIndexOf text d.value < (text.length : Int))
    (hnoun : 0 ≤ noun.index ∧ noun.index < (text.length : Int))
    (hspn : ∀ p, spn = some p → 0 ≤ p.index ∧ p.index < (text.length : Int)) :
    ∀ a ∈ getSelectionArray text dates noun none none spn,
      0 ≤ a.index ∧ a.index < (text.length : Int) := by
  intro a ha
  unfold getSelectionArray sortByIndex at ha
  rw [List.mem_insertionSort] at ha
  simp only [Option.getD_none, List.append_nil, List.mem_append, List.mem_map,
    List.mem_singleton] at ha
  rcases ha with (⟨d, hd, rfl⟩ | rfl) | hp
  · exact hdates d hd
  · exact hnoun
  · cases hsp : spn with
    | none => rw [hsp] at hp; exact absurd hp (List.not_mem_nil a)
    | some p =>
      rw [hsp] at hp
      have ha2 : a = (⟨p.value, p.index, p.type⟩ : Span) := by simpa using hp
      subst ha2
      exact hspn p hsp

/-- Bounds for the directly resolved event noun: when it is not the sentinel,
its offset is a first occurrence of one tagged candidate value. -/
theorem directNoun_bounds (env : Env) (s : Sentence)
    (hmain : ∀ d ∈ mainEnts env s,
      (indexOfAux d.value.toList (ciText s).toList).isSome ∧ d.value ≠ "")
    (hnoun : (directNoun env s).index ≠ -1) :
    0 ≤ (directNoun env s).index ∧ (directNoun env s).index < ((ciText s).length : Int) := by
  rcases findEventNoun_default_or_mem (ciText s) (filterEventNoun (mainEnts env s))
      (anchorIndex env s) with hdef | ⟨n, hn, heq⟩
  · have hidx : (directNoun env s).index = -1 := by
      show (findEventNoun (ciText s) (filterEventNoun (mainEnts env s)) (anchorIndex env s)).index
        = -1
      rw [hdef]
    exact absurd hidx hnoun
  · have hset : n ∈ mainEnts env s := List.mem_of_mem_filter hn
    obtain ⟨hocc, hne⟩ := hmain n hset
    have hb := strIndexOf_bounds hocc hne
    have heq2 : directNoun env s = ⟨n.value, strIndexOf (ciText s) n.value, n.type⟩ := heq
    rw [heq2]
    exact hb

/-- The terminal stage of the pipeline can only return a success record
carrying the selection it was handed. -/
theorem selection_of_terminal (o : Option Event) (sel : List Span) (c : Event)
    (r : ProcessResult) (flag : Bool)
    (h : (if matchedEventProcessed o then ProcessOut.nullR
      else
        match o with
        | none => ProcessOut.success ⟨sel, c⟩ true
        | some e => ProcessOut.success ⟨sel, e⟩ false) = ProcessOut.success r flag) :
    r.selection = sel := by
  by_cases hb : matchedEventProcessed o = true
  · rw [if_pos hb] at h
    exact absurd h (by simp)
  · rw [if_neg hb] at h
    cases o with
    | none =>
      simp only at h
      injection h with h1 h2
      rw [← h1]
    | some e =>
      simp only at h
      injection h with h1 h2
      rw [← h1]

/-- Inverting a successful `process` run: the returned selection is the
`getSelectionArray` of the cleaned dates, the resolved noun, both walks and
the resolved person. -/
theorem process_success_selection (env : Env) (s : Sentence) (r : ProcessResult) (flag : Bool)
    (noun : Span) (spn : Option ProperName)
    (hres : resolvedEventNoun env s = some noun)
    (hfpn : findProperName s.value (filterProperNames (secEnts env s)) noun = Except.ok spn)
    (hr : process env true s = ProcessOut.success r flag) :
    r.selection = getSelectionArray (ciText s) (cleanJunkDates (filterDates (mainEnts env s)))
      noun
      (findAdjAttributes (env.tokensOf (ciText s)) (env.posOf (ciText s)) noun spn noun.index
        (anchorIndex env s) true)
      (findAdjAttributes (env.tokensOf (ciText s)) (env.posOf (ciText s)) noun spn noun.index
        (anchorIndex env s) false)
      spn := by
  rw [process_true_eq_spine] at hr
  unfold processSpine at hr
  by_cases hsy : matchedEventProcessed (env.syntacticCheck s) = true
  · rw [if_pos hsy] at hr
    exact absurd hr (by simp)
  · rw [if_neg hsy] at hr
    by_cases hd : (filterDates (mainEnts env s)).length = 0
    · rw [if_pos hd] at hr
      exact absurd hr (by simp)
    · rw [if_neg hd] at hr
      rw [hres] at hr
      simp only at hr
      rw [hfpn] at hr
      simp only at hr
      cases hpd : env.parseDates
          (timeRelatedString (cleanJunkDates (filterDates (mainEnts env s)))) with
      | none =>
        rw [hpd] at hr
        exact absurd hr (by simp)
      | some dr =>
        rw [hpd] at hr
        simp only at hr
        exact selection_of_terminal _ _ _ _ _ hr

/-- Environment of the C7 counterexample: no event-noun candidate, so the
intentional-verb fallback fires, and the derived phrase `"want call"` is not
a substring of the sentence. -/
def c7Env : Env :=
  { baseEnv with
    tagMain := fun _ => [⟨"on monday", "date"⟩, ⟨"want to schedule a call", "intentionalVerb"⟩]
    tokensOf := fun _ => ["i", "want", "to", "schedule", "a", "call", "on", "monday"]
    posOf := fun _ => ["PRON", "VERB", "PART", "VERB", "DET", "NOUN", "ADP", "NOUN"]
    parseDates := fun _ => some ⟨0, 1⟩ }

/-- The C7 counterexample sentence. -/
def c7S : Sentence := ⟨"i want to schedule a call on monday", none, none, none⟩

/-- C7, counterexample.  The claim says every Selection Span of a successful
result has a valid (non-negative, in-bounds) index.  On this successful run
the event noun comes from the intentional-verb fallback; its derived phrase
`"want call"` does not occur in the sentence, so `indexOf` yields `-1` and
the returned selection contains a span with index `-1`. -/
theorem c7_counterexample :
    process c7Env true c7S = ProcessOut.success
      ⟨[⟨"want call", -1, "eventNoun"⟩, ⟨"on monday", 26, "date"⟩], ⟨false, 1⟩⟩ true ∧
    ¬ (0 ≤ (Span.mk "want call" (-1) "eventNoun").index) := by
  constructor
  · set_option maxRecDepth 10000 in decide
  · decide

/-- C7 (amended): for every successful result of `process()` in which the
event noun was resolved directly (not via the intentional-verb fallback) and
both adjacency walks contributed nothing, every Selection Span's index is a
valid (non-negative, in-bounds) character offset into the lower-cased
sentence text, provided every tagger-reported span value is a non-empty
substring of that text.  (Without these provisos the invariant fails: the
fallback event-noun span can carry index `-1`, and the walk's cumulative
offset arithmetic can produce out-of-range offsets.) -/
theorem c7_amended (env : Env) (s : Sentence) (r : ProcessResult) (flag : Bool)
    (spn : Option ProperName)
    (hmain : ∀ d ∈ mainEnts env s,
      (indexOfAux d.value.toList (ciText s).toList).isSome ∧ d.value ≠ "")
    (hsec : ∀ d ∈ secEnts env s,
      (indexOfAux d.value.toList (ciText s).toList).isSome ∧ d.value ≠ "")
    (hnoun : (directNoun env s).index ≠ -1)
    (hfpn : findProperName s.value (filterProperNames (secEnts env s)) (directNoun env s)
      = Except.ok spn)
    (hbw : findAdjAttributes (env.tokensOf (ciText s)) (env.posOf (ciText s))
      (directNoun env s) spn (directNoun env s).index (anchorIndex env s) true = none)
    (hfw : findAdjAttributes (env.tokensOf (ciText s)) (env.posOf (ciText s))
      (directNoun env s) spn (directNoun env s).index (anchorIndex env s) false = none)
    (hr : process env true s = ProcessOut.success r flag) :
    ∀ a ∈ r.selection, 0 ≤ a.index ∧ a.index < ((ciText s).length : Int) := by
  have hres : resolvedEventNoun env s = some (directNoun env s) := by
    unfold resolvedEventNoun
    rw [if_neg hnoun]
  have hsel := process_success_selection env s r flag (directNoun env s) spn hres hfpn hr
  rw [hbw, hfw] at hsel
  rw [hsel]
  apply getSelectionArray_valid
  · intro d hd
    have hd3 : d ∈ mainEnts env s := List.mem_of_mem_filter (cleanJunkDates_subset hd)
    obtain ⟨hocc, hne⟩ := hmain d hd3
    exact strIndexOf_bounds hocc hne
  · exact directNoun_bounds env s hmain hnoun
  · intro p hp
    rw [hp] at hfpn
    obtain ⟨c, hc, hcv⟩ := findProperName_index s.value
      (filterProperNames (secEnts env s)) (directNoun env s) p hfpn
    have hc2 : c ∈ secEnts env s := List.mem_of_mem_filter hc
    obtain ⟨hocc, hne⟩ := hsec c hc2
    have hb := strIndexOf_bounds hocc hne
    rw [hcv]
    exact hb

/-- Environment of the C7 witness: direct event-noun resolution, empty
secondary tagger, both walks empty. -/
def c7wEnv : Env :=
  { baseEnv with
    tagMain := fun _ => [⟨"on monday", "date"⟩, ⟨"call", "eventNoun"⟩]
    tokensOf := fun _ => ["call", "on", "monday"]
    posOf := fun _ => ["NOUN", "ADP", "NOUN"]
    parseDates := fun _ => some ⟨0, 1⟩ }

/-- The C7 witness sentence. -/
def c7wS : Sentence := ⟨"call on monday", none, none, none⟩

/-- C7, witness: the amended theorem instantiated at a concrete successful
run, specialised to the event-noun span of its selection. -/
theorem c7_witness :
    (0 : Int) ≤ (Span.mk "call" 0 "eventNoun").index ∧
      (Span.mk "call" 0 "eventNoun").index < ((ciText c7wS).length : Int) :=
  c7_amended c7wEnv c7wS
    ⟨[⟨"call", 0, "eventNoun"⟩, ⟨"on monday", 5, "date"⟩], ⟨false, 1⟩⟩ true none
    (by decide) (by decide) (by decide) (by rfl) (by rfl) (by rfl)
    (by set_option maxRecDepth 10000 in decide)
    ⟨"call", 0, "eventNoun"⟩ (by decide)

end ICalNlp
